import Mathlib

/-!
Verification of the FoodRecognition mask-synthesis core
(src/utils/segmentation_utils.py and src/extract_segmentation.py).

Modelling conventions.
* numpy arrays are modelled pointwise as total functions from coordinates to
  values; an array of shape (H, W, C) becomes a function
  Nat → Nat → Nat → value read as (row, col, channel).  Allocation shapes
  (img height/width) only fix the array extent, so they disappear in the
  pointwise model; shapes that carry information (the depth of load_data's
  outputs) are kept explicitly in the Arr4 record.
* A Python dict built by dict(zip(keys, vals)) is modelled as the association
  list keys.zip vals with lookup dget returning the LAST binding of a key
  (later duplicate keys overwrite earlier ones, exactly as dict does).
* float32 mask values are exactly 0.0/1.0, modelled as the naturals 0/1;
  uint16 arithmetic in extractMasks is modelled with explicit % 65536.
* The pycocotools COCO object is out of scope (an external annotation store
  per the design): it is modelled as a record of its query functions.
  coco.loadAnns(a)[0] is collapsed into an Ann record carrying the fields the
  core reads: the category id and the binary rasterization
  coco.annToMask(ann), the latter as a Bool-valued pixel function.
-/

/-- An annotation as the mask-synthesis code consumes it: its category id and
its rasterization coco.annToMask(ann), a binary mask given pointwise. -/
structure Ann where
  category_id : Nat
  rast : Nat → Nat → Bool

/-- The record coco.loadImgs(img_id)[0], restricted to the fields read. -/
structure CocoImg where
  file_name : String
  height : Nat
  width : Nat

/-- The annotation store (pycocotools COCO), as the capability contract the
core consumes: category resolution, per-category image query, image and
annotation lookup. -/
structure Coco where
  getCatIds : List String → List Nat
  catName : Nat → String
  getImgIdsForCat : Nat → List Nat
  loadImg : Nat → CocoImg
  getAnnIds : Nat → List Nat
  loadAnn : Nat → Ann

/-- Python dict lookup on an association list: the last binding of a key wins,
as in a dict built or updated left to right. -/
def dget (d : List (Nat × Nat)) (k : Nat) : Option Nat :=
  (d.reverse.find? (fun p => p.1 == k)).map Prod.snd

/-- Number of entries of the dict an association list denotes
(= number of distinct keys). -/
def dsize (d : List (Nat × Nat)) : Nat :=
  (d.map Prod.fst).dedup.length

/-- One iteration of the annotation loop of load_mask
(segmentation_utils.py lines 175-186).  The Python guard
`ann.category_id in list(cat_to_class.keys())` holds exactly when dget
returns some index i; then the i-th channel is overwritten with the
rasterization and the rasterization is OR-ed into the background
accumulator.  State: (mask channels as (row, col, channel) ↦ {0,1},
background accumulator as (row, col) ↦ Bool). -/
def maskStep (cat_to_class : List (Nat × Nat))
    (st : (Nat → Nat → Nat → Nat) × (Nat → Nat → Bool)) (a : Ann) :
    (Nat → Nat → Nat → Nat) × (Nat → Nat → Bool) :=
  match dget cat_to_class a.category_id with
  | some i =>
      (fun r c ch => if ch = i then (if a.rast r c then 1 else 0) else st.1 r c ch,
       fun r c => st.2 r c || a.rast r c)
  | none => st

/-- The body of load_mask over an explicit annotation list: fold the
annotation loop from the all-zero state, then overwrite channel 0 with the
logical negation of the background accumulator
(segmentation_utils.py lines 170-192). -/
def load_maskAnns (anns : List Ann) (cat_to_class : List (Nat × Nat)) :
    Nat → Nat → Nat → Nat :=
  fun r c ch =>
    if ch = 0 then
      (if (anns.foldl (maskStep cat_to_class)
            (fun _ _ _ => 0, fun _ _ => false)).2 r c then 0 else 1)
    else
      (anns.foldl (maskStep cat_to_class)
        (fun _ _ _ => 0, fun _ _ => false)).1 r c ch

/-- load_mask: the categorical multi-channel mask of an image
(segmentation_utils.py lines 142-192).  The image record is only read for
the allocation shape, which the pointwise model drops. -/
def load_mask (coco : Coco) (img_id : Nat) (cat_to_class : List (Nat × Nat)) :
    Nat → Nat → Nat → Nat :=
  load_maskAnns ((coco.getAnnIds img_id).map coco.loadAnn) cat_to_class

/-- load_imgs (segmentation_utils.py lines 99-139): normalizes a None
class-name selection to the empty list, resolves category ids, prepends the
synthetic background class, builds cat_to_class as
dict(zip([0] + cat_ids, range(len(class_names)))), and collects the
deduplicated union of the per-category image id lists.  Python's set() has
unspecified order; it is modelled as first-occurrence dedup. -/
def load_imgs (coco : Coco) (class_names : Option (List String)) :
    List Nat × List String × List String × List (Nat × Nat) :=
  let names := class_names.getD []
  let cat_ids := coco.getCatIds names
  let cls := "background" :: cat_ids.map coco.catName
  let cat_to_class := (0 :: cat_ids).zip (List.range cls.length)
  let img_ids := (cat_ids.map coco.getImgIdsForCat).flatten.dedup
  let img_names := img_ids.map (fun i => (coco.loadImg i).file_name)
  (img_ids, img_names, cls, cat_to_class)

/-- A 4-dimensional array with explicit shape and pointwise contents. -/
structure Arr4 where
  d0 : Nat
  d1 : Nat
  d2 : Nat
  d3 : Nat
  val : Nat → Nat → Nat → Nat → Nat

/-- load_data (segmentation_utils.py lines 35-96).  Image decoding/resizing
and PIL nearest-neighbor resizing are external capabilities, passed in as
decodeResized (img_to_array of load_img with target_size) and resizeNN
(Image.fromarray(..).resize(img_size, Image.NEAREST) applied to one
channel).  X holds the decoded resized images; Y holds, per image and per
channel j, the nearest-neighbor resize of channel j of the native-resolution
categorical mask.  Progress display is dropped (no effect on the result).
The float32 casts are dropped: mask values are exactly 0/1. -/
def load_data (coco : Coco) (img_dir : String) (img_size : Nat × Nat)
    (class_names : Option (List String))
    (decodeResized : String → Nat × Nat → Nat → Nat → Nat → Nat)
    (resizeNN : (Nat → Nat → Nat) → Nat × Nat → Nat → Nat → Nat) :
    Arr4 × Arr4 :=
  let r := load_imgs coco class_names
  let img_ids := r.1
  let img_names := r.2.1
  let cls := r.2.2.1
  let cat_to_class := r.2.2.2
  let x : Arr4 :=
    ⟨img_names.length, img_size.1, img_size.2, 3,
     fun i rr cc k =>
       decodeResized (img_dir ++ "/" ++ img_names.getD i "") img_size rr cc k⟩
  let y : Arr4 :=
    ⟨img_names.length, img_size.1, img_size.2, cls.length,
     fun i rr cc j =>
       resizeNN (fun a b => load_mask coco (img_ids.getD i 0) cat_to_class a b j)
         img_size rr cc⟩
  (x, y)

/-- get_class_dist (segmentation_utils.py lines 250-283): normalizes a None
selection to [], counts the distinct images covered by any resolved
category, and maps each resolved category id to its image count; the result
dict is {0: n_images} updated with those pairs (as an association list with
dget last-binding-wins semantics). -/
def get_class_dist (coco : Coco) (class_names : Option (List String)) :
    List (Nat × Nat) :=
  let names := class_names.getD []
  let cat_ids := coco.getCatIds names
  let n_images := (cat_ids.map coco.getImgIdsForCat).flatten.dedup.length
  let cat_dist := cat_ids.map (fun id => (id, (coco.getImgIdsForCat id).length))
  (0, n_images) :: cat_dist

/-- The per-image body of ExtractSegmentations.extractMasks
(extract_segmentation.py lines 87-98): a uint16 accumulator to which each
annotation adds category_id times its rasterization, elementwise modulo
2^16. -/
def extractMask (anns : List Ann) : Nat → Nat → Nat :=
  anns.foldl
    (fun m a => fun r c =>
       (m r c + (if a.rast r c then a.category_id else 0)) % 65536)
    (fun _ _ => 0)

/-- The per-image body of ExtractSegmentations.extractBinaryMasks
(extract_segmentation.py lines 107-117): a uint8 accumulator OR-ed with each
rasterization.  Rasterizations are binary, so values stay in {0,1}. -/
def extractBinaryMask (anns : List Ann) : Nat → Nat → Nat :=
  anns.foldl
    (fun m a => fun r c => m r c ||| (if a.rast r c then 1 else 0))
    (fun _ _ => 0)

/-- The channel index map of ExtractSegmentations.__init__
(extract_segmentation.py lines 16-21): all category ids with 0 inserted,
sorted ascending, enumerated from 0. -/
def mapCatIdsLabels (catIds : List Nat) : List (Nat × Nat) :=
  let sorted := (0 :: catIds).mergeSort (fun a b => a ≤ b)
  sorted.zip (List.range sorted.length)

/-- Pixel-wise maximum of the channels 1 .. n-1 of a mask at one pixel
(the union of all non-background channels). -/
def unionOthers (m : Nat → Nat → Nat → Nat) (n r c : Nat) : Nat :=
  ((List.range n).filter (fun ch => ch ≠ 0)).foldl
    (fun acc ch => max acc (m r c ch)) 0

/-- The last annotation of a list whose category is mapped to channel i
(the one whose write survives in channel i after the load_mask loop). -/
def lastWrite (c2c : List (Nat × Nat)) (anns : List Ann) (i : Nat) : Option Ann :=
  anns.reverse.find? (fun a => dget c2c a.category_id == some i)

/-- A small concrete annotation store used to instantiate the theorems:
two categories (ids 5 and 7), images 10 and 11, and two annotations per
image (category 5 covering row 0, category 9 covering column 0). -/
def cocoW : Coco where
  getCatIds := fun _ => [5, 7]
  catName := fun i => if i == 5 then "apple" else "bread"
  getImgIdsForCat := fun i => if i == 5 then [10, 11] else [11]
  loadImg := fun i => ⟨if i == 10 then "a.jpg" else "b.jpg", 2, 2⟩
  getAnnIds := fun _ => [20, 21]
  loadAnn := fun a =>
    if a == 20 then ⟨5, fun r _ => r == 0⟩ else ⟨9, fun _ c => c == 0⟩

/-- Concrete channel index map {0 ↦ 0, 5 ↦ 1} for the background-invariant
counterexample. -/
def c2cX : List (Nat × Nat) := [(0, 0), (5, 1)]

/-- Two annotations of the same category 5: the first covers every pixel,
the second covers none, so the second write erases the first from channel 1
while the background accumulator keeps both. -/
def annsX : List Ann := [⟨5, fun _ _ => true⟩, ⟨5, fun _ _ => false⟩]

/-- A single annotation of category 5 covering row 0, a well-behaved input
for the amended background invariant. -/
def annsY : List Ann := [⟨5, fun r _ => r == 0⟩]

/-! ## General lemmas about the mask fold and dict lookup -/

theorem foldl_maskStep_eq_self (c2c : List (Nat × Nat)) :
    ∀ (anns : List Ann) (st : (Nat → Nat → Nat → Nat) × (Nat → Nat → Bool)),
      (∀ a ∈ anns, dget c2c a.category_id = none) →
      anns.foldl (maskStep c2c) st = st := by
  intro anns
  induction anns with
  | nil => intro st _; rfl
  | cons a l ih =>
      intro st h
      have ha := h a (List.mem_cons_self a l)
      have hstep : maskStep c2c st a = st := by
        unfold maskStep; rw [ha]
      rw [List.foldl_cons, hstep]
      exact ih st (fun b hb => h b (List.mem_cons_of_mem a hb))

theorem foldl_maskStep_preserve (c2c : List (Nat × Nat)) (i r c : Nat) :
    ∀ (l : List Ann) (st : (Nat → Nat → Nat → Nat) × (Nat → Nat → Bool)),
      (∀ b ∈ l, dget c2c b.category_id ≠ some i) →
      (l.foldl (maskStep c2c) st).1 r c i = st.1 r c i := by
  intro l
  induction l with
  | nil => intro st _; rfl
  | cons b l ih =>
      intro st h
      rw [List.foldl_cons]
      rw [ih _ (fun x hx => h x (List.mem_cons_of_mem b hx))]
      have hb := h b (List.mem_cons_self b l)
      unfold maskStep
      cases hd : dget c2c b.category_id with
      | none => rfl
      | some j =>
          have : i ≠ j := by
            intro he
            exact hb (he ▸ hd)
          simp [this]

/-! ## C3: images with no in-scope annotations give an all-background mask -/

/-- C3: for an image none of whose annotations has a category id that is a
key of the channel index map, load_mask returns a mask whose channel 0 is 1
at every pixel and whose every other channel is 0 at every pixel. -/
theorem claim_C3 (coco : Coco) (img_id : Nat) (c2c : List (Nat × Nat))
    (h : ∀ aid ∈ coco.getAnnIds img_id,
      dget c2c (coco.loadAnn aid).category_id = none)
    (r c : Nat) :
    load_mask coco img_id c2c r c 0 = 1 ∧
      ∀ ch, ch ≠ 0 → load_mask coco img_id c2c r c ch = 0 := by
  have hanns : ∀ a ∈ (coco.getAnnIds img_id).map coco.loadAnn,
      dget c2c a.category_id = none := by
    intro a ha
    rcases List.mem_map.mp ha with ⟨aid, haid, rfl⟩
    exact h aid haid
  unfold load_mask load_maskAnns
  rw [foldl_maskStep_eq_self c2c _ _ hanns]
  refine ⟨rfl, ?_⟩
  intro ch hch
  simp [hch]

/-- C3 witness: image 10 of the concrete store has annotations of
categories 5 and 9 only, neither a key of {0 ↦ 0, 7 ↦ 1}. -/
theorem claim_C3_witness :
    (∀ aid ∈ cocoW.getAnnIds 10,
      dget [(0, 0), (7, 1)] (cocoW.loadAnn aid).category_id = none) ∧
    (load_mask cocoW 10 [(0, 0), (7, 1)] 0 0 0 = 1 ∧
      ∀ ch, ch ≠ 0 → load_mask cocoW 10 [(0, 0), (7, 1)] 0 0 ch = 0) :=
  ⟨by decide, claim_C3 cocoW 10 [(0, 0), (7, 1)] (by decide) 0 0⟩

/-! ## C4: out-of-scope annotations have no effect at all -/

/-- C4: an annotation whose category id is not a key of the channel index
map has no effect on any channel of the mask: removing it from the
annotation list leaves load_mask's result unchanged at every pixel and
every channel. -/
theorem claim_C4 (c2c : List (Nat × Nat)) (a : Ann)
    (h : dget c2c a.category_id = none) (l1 l2 : List Ann) (r c ch : Nat) :
    load_maskAnns (l1 ++ a :: l2) c2c r c ch =
      load_maskAnns (l1 ++ l2) c2c r c ch := by
  have hstep : ∀ st, maskStep c2c st a = st := by
    intro st; unfold maskStep; rw [h]
  have hfold : ∀ st0 : (Nat → Nat → Nat → Nat) × (Nat → Nat → Bool),
      (l1 ++ a :: l2).foldl (maskStep c2c) st0 =
        (l1 ++ l2).foldl (maskStep c2c) st0 := by
    intro st0
    rw [List.foldl_append, List.foldl_append, List.foldl_cons, hstep]
  unfold load_maskAnns
  rw [hfold]

/-- C4 witness: dropping an annotation of category 9 (not a key of
{0 ↦ 0, 5 ↦ 1}) from between two others leaves the mask unchanged. -/
theorem claim_C4_witness :
    dget [(0, 0), (5, 1)] (Ann.mk 9 (fun _ c => c == 0)).category_id = none ∧
    load_maskAnns (annsY ++ Ann.mk 9 (fun _ c => c == 0) :: annsY)
        [(0, 0), (5, 1)] 0 0 1 =
      load_maskAnns (annsY ++ annsY) [(0, 0), (5, 1)] 0 0 1 :=
  ⟨by decide,
   claim_C4 [(0, 0), (5, 1)] (Ann.mk 9 (fun _ c => c == 0)) (by decide)
     annsY annsY 0 0 1⟩

/-! ## C5: channel writes are plain assignments (last write wins) -/

/-- C5: each in-scope annotation is written into its category's channel by
plain assignment, so after the loop a (non-background) channel equals
exactly the rasterization of the last in-scope annotation mapped to it, with
no accumulation of earlier same-category rasterizations. -/
theorem claim_C5 (c2c : List (Nat × Nat)) (a : Ann) (i : Nat)
    (hi : dget c2c a.category_id = some i) (hne : i ≠ 0)
    (l1 l2 : List Ann)
    (hlast : ∀ b ∈ l2, dget c2c b.category_id ≠ some i) (r c : Nat) :
    load_maskAnns (l1 ++ a :: l2) c2c r c i =
      if a.rast r c then 1 else 0 := by
  unfold load_maskAnns
  rw [if_neg hne, List.foldl_append, List.foldl_cons,
    foldl_maskStep_preserve c2c i r c l2 _ hlast]
  unfold maskStep
  rw [hi]
  simp

/-- C5 witness: with channels {0 ↦ 0, 5 ↦ 1}, an all-covering annotation of
category 5 followed by a row-0 annotation of category 5 leaves channel 1
equal to the later, smaller rasterization (pixel (1,1) is 0, not 1). -/
theorem claim_C5_witness :
    dget c2cX (Ann.mk 5 (fun r _ => r == 0)).category_id = some 1 ∧
    (1 : Nat) ≠ 0 ∧
    (∀ b ∈ ([] : List Ann), dget c2cX b.category_id ≠ some 1) ∧
    load_maskAnns ([Ann.mk 5 (fun _ _ => true)] ++
        Ann.mk 5 (fun r _ => r == 0) :: []) c2cX 1 1 1 =
      if (Ann.mk 5 (fun r _ => r == 0)).rast 1 1 then 1 else 0 :=
  ⟨by decide, by decide, by decide,
   claim_C5 c2cX (Ann.mk 5 (fun r _ => r == 0)) 1 (by decide) (by decide)
     [Ann.mk 5 (fun _ _ => true)] [] (by decide) 1 1⟩

/-! ## C8: the binary union mask is idempotent under duplicates -/

/-- C8: OR-ing the same annotation's rasterization into the binary union
mask twice yields the same mask as OR-ing it in once. -/
theorem claim_C8 (anns : List Ann) (a : Ann) (r c : Nat) :
    extractBinaryMask (anns ++ [a, a]) r c =
      extractBinaryMask (anns ++ [a]) r c := by
  unfold extractBinaryMask
  rw [List.foldl_append, List.foldl_append]
  simp only [List.foldl_cons, List.foldl_nil]
  rw [Nat.lor_assoc, Nat.or_self]

/-! ## C10: a None class-name selection is the empty selection -/

/-- C10: passing None as the class-name selection to load_imgs or
get_class_dist behaves identically to passing the empty list: None is
normalized to [] before category resolution. -/
theorem claim_C10 (coco : Coco) :
    load_imgs coco none = load_imgs coco (some []) ∧
      get_class_dist coco none = get_class_dist coco (some []) :=
  ⟨rfl, rfl⟩

/-! ## Dict lookup lemmas -/

theorem dget_eq_none (d : List (Nat × Nat)) (k : Nat)
    (h : ∀ p ∈ d, p.1 ≠ k) : dget d k = none := by
  unfold dget
  have : List.find? (fun p => p.1 == k) d.reverse = none := by
    rw [List.find?_eq_none]
    intro x hx
    simp only [beq_iff_eq]
    exact h x (List.mem_reverse.mp hx)
  rw [this]
  rfl

theorem dget_cons (p : Nat × Nat) (d : List (Nat × Nat)) (k : Nat) :
    dget (p :: d) k =
      (dget d k).or (if p.1 = k then some p.2 else none) := by
  unfold dget
  rw [List.reverse_cons, List.find?_append]
  cases hf : List.find? (fun q => q.1 == k) d.reverse with
  | some q => simp
  | none =>
      simp only [List.find?_cons, List.find?_nil, Option.none_or]
      by_cases hk : p.1 = k
      · simp [hk]
      · have hb : (p.1 == k) = false := beq_eq_false_iff_ne.mpr hk
        rw [hb, if_neg hk]
        rfl

theorem dget_eq_of_mem (d : List (Nat × Nat)) (k v : Nat)
    (hnd : (d.map Prod.fst).Nodup) (hmem : (k, v) ∈ d) :
    dget d k = some v := by
  induction d with
  | nil => cases hmem
  | cons q d ih =>
      rw [List.map_cons, List.nodup_cons] at hnd
      rw [dget_cons]
      rcases List.mem_cons.mp hmem with heq | hmem
      · subst heq
        have hnone : dget d k = none := by
          apply dget_eq_none
          intro p hp hpk
          exact hnd.1 (List.mem_map.mpr ⟨p, hp, hpk⟩)
        rw [hnone, if_pos rfl]
        rfl
      · rw [ih hnd.2 hmem]
        rfl

/-! ## C2: shape and ordering of the channel index map -/

/-- C2: for category ids as the store supplies them (pairwise distinct,
never 0), the channel index map built by load_imgs has exactly
1 + (number of resolved categories) entries, maps key 0 to value 0, and
maps the i-th resolved category id, in category-query order, to value
i + 1. -/
theorem claim_C2 (coco : Coco) (cn : Option (List String))
    (hnd : (coco.getCatIds (cn.getD [])).Nodup)
    (h0 : 0 ∉ coco.getCatIds (cn.getD [])) :
    dsize (load_imgs coco cn).2.2.2 =
        1 + (coco.getCatIds (cn.getD [])).length ∧
    dget (load_imgs coco cn).2.2.2 0 = some 0 ∧
    ∀ i (hi : i < (coco.getCatIds (cn.getD [])).length),
      dget (load_imgs coco cn).2.2.2
          ((coco.getCatIds (cn.getD [])).get ⟨i, hi⟩) = some (i + 1) := by
  set cat_ids := coco.getCatIds (cn.getD []) with hc
  have hm : (load_imgs coco cn).2.2.2 =
      (0 :: cat_ids).zip (List.range (cat_ids.length + 1)) := by
    simp [load_imgs, hc, Nat.add_comm]
  have hlenz : ((0 :: cat_ids).zip
      (List.range (cat_ids.length + 1))).length = cat_ids.length + 1 := by
    simp
  have hkeys : ((0 :: cat_ids).zip
      (List.range (cat_ids.length + 1))).map Prod.fst = 0 :: cat_ids := by
    apply List.map_fst_zip
    simp
  have hnodup0 : (0 :: cat_ids).Nodup := List.nodup_cons.mpr ⟨h0, hnd⟩
  have hkeysnd : (((0 :: cat_ids).zip
      (List.range (cat_ids.length + 1))).map Prod.fst).Nodup := by
    rw [hkeys]; exact hnodup0
  refine ⟨?_, ?_, ?_⟩
  · rw [hm]
    unfold dsize
    rw [hkeys, List.dedup_eq_self.mpr hnodup0]
    simp [Nat.add_comm]
  · rw [hm]
    apply dget_eq_of_mem _ _ _ hkeysnd
    rw [List.range_succ_eq_map, List.zip_cons_cons]
    exact List.mem_cons_self _ _
  · intro i hi
    rw [hm]
    apply dget_eq_of_mem _ _ _ hkeysnd
    have hilt : i + 1 < ((0 :: cat_ids).zip
        (List.range (cat_ids.length + 1))).length := by
      rw [hlenz]; omega
    have hval : ((0 :: cat_ids).zip
        (List.range (cat_ids.length + 1)))[i + 1] =
        (cat_ids.get ⟨i, hi⟩, i + 1) := by
      rw [List.getElem_zip, List.getElem_cons_succ, List.getElem_range]
      simp [List.get_eq_getElem]
    exact hval ▸ List.getElem_mem hilt

/-- C2 witness: the concrete store resolves categories [5, 7]; the map has
3 entries, maps 0 to 0, 5 to 1 and 7 to 2. -/
theorem claim_C2_witness :
    (cocoW.getCatIds ((some ["x"]).getD [])).Nodup ∧
    0 ∉ cocoW.getCatIds ((some ["x"]).getD []) ∧
    (dsize (load_imgs cocoW (some ["x"])).2.2.2 =
        1 + (cocoW.getCatIds ((some ["x"]).getD [])).length ∧
     dget (load_imgs cocoW (some ["x"])).2.2.2 0 = some 0 ∧
     ∀ i (hi : i < (cocoW.getCatIds ((some ["x"]).getD [])).length),
       dget (load_imgs cocoW (some ["x"])).2.2.2
           ((cocoW.getCatIds ((some ["x"]).getD [])).get ⟨i, hi⟩) =
         some (i + 1)) :=
  ⟨by decide, by decide, claim_C2 cocoW (some ["x"]) (by decide) (by decide)⟩

/-! ## C7: the flattened label mask sums category ids modulo 2^16 -/

theorem extractMask_fold_apply :
    ∀ (anns : List Ann) (m0 : Nat → Nat → Nat) (r c : Nat),
      (anns.foldl
        (fun m a => fun r c =>
          (m r c + (if a.rast r c then a.category_id else 0)) % 65536) m0) r c =
      anns.foldl
        (fun s a => (s + (if a.rast r c then a.category_id else 0)) % 65536)
        (m0 r c) := by
  intro anns
  induction anns with
  | nil => intro m0 r c; rfl
  | cons a l ih =>
      intro m0 r c
      rw [List.foldl_cons, List.foldl_cons]
      exact ih _ r c

theorem extractMask_eq_scalar (anns : List Ann) (r c : Nat) :
    extractMask anns r c =
      anns.foldl
        (fun s a => (s + (if a.rast r c then a.category_id else 0)) % 65536)
        0 :=
  extractMask_fold_apply anns (fun _ _ => 0) r c

theorem foldl_mod_sum (w : Ann → Nat) :
    ∀ (l : List Ann) (v : Nat),
      l.foldl (fun s a => (s + w a) % 65536) (v % 65536) =
        (v + (l.map w).sum) % 65536 := by
  intro l
  induction l with
  | nil => intro v; simp
  | cons a l ih =>
      intro v
      rw [List.foldl_cons, Nat.mod_add_mod, ih (v + w a)]
      simp [Nat.add_assoc]

theorem sum_if_eq_sum_filter (r c : Nat) : ∀ (l : List Ann),
    (l.map (fun a => if a.rast r c then a.category_id else 0)).sum =
      ((l.filter (fun a => a.rast r c)).map (fun a => a.category_id)).sum := by
  intro l
  induction l with
  | nil => rfl
  | cons a l ih =>
      by_cases h : a.rast r c
      · simp [List.filter_cons, h, ih]
      · simp [List.filter_cons, h, ih]

/-- C7: every pixel of the flattened label mask holds the sum of the
category ids of the annotations covering it, in 16-bit unsigned arithmetic
(modulo 2^16), with overlaps of distinct categories left as the raw sum. -/
theorem claim_C7 (anns : List Ann) (r c : Nat) :
    extractMask anns r c =
      ((anns.filter (fun a => a.rast r c)).map
          (fun a => a.category_id)).sum % 2 ^ 16 := by
  rw [extractMask_eq_scalar]
  have h := foldl_mod_sum
    (fun a => if a.rast r c then a.category_id else 0) anns 0
  simp only [Nat.zero_mod, Nat.zero_add] at h
  rw [h, sum_if_eq_sum_filter]
  norm_num

/-! ## C9: the class distribution dict -/

theorem dget_eq_of_forall (d : List (Nat × Nat)) (k v : Nat)
    (hex : ∃ p ∈ d, p.1 = k) (hall : ∀ p ∈ d, p.1 = k → p.2 = v) :
    dget d k = some v := by
  induction d with
  | nil => rcases hex with ⟨p, hp, _⟩; cases hp
  | cons q d ih =>
      rw [dget_cons]
      by_cases hd : ∃ p ∈ d, p.1 = k
      · rw [ih hd (fun p hp hpk => hall p (List.mem_cons_of_mem q hp) hpk)]
        rfl
      · have hnone : dget d k = none := by
          apply dget_eq_none
          intro p hp hpk
          exact hd ⟨p, hp, hpk⟩
        rw [hnone, Option.none_or]
        rcases hex with ⟨p, hp, hpk⟩
        rcases List.mem_cons.mp hp with heq | hp2
        · subst heq
          rw [if_pos hpk]
          rw [hall p (List.mem_cons_self p d) hpk]
        · exact absurd ⟨p, hp2, hpk⟩ hd

/-- C9: the class-distribution dict contains key 0 mapped to the number of
distinct images annotated with at least one selected category, and maps
each resolved category id to the image count the store reports for it
(category ids are never 0 in the store). -/
theorem claim_C9 (coco : Coco) (cn : Option (List String))
    (h0 : 0 ∉ coco.getCatIds (cn.getD [])) :
    dget (get_class_dist coco cn) 0 =
      some (((coco.getCatIds (cn.getD [])).map
        coco.getImgIdsForCat).flatten.dedup.length) ∧
    ∀ id ∈ coco.getCatIds (cn.getD []),
      dget (get_class_dist coco cn) id =
        some (coco.getImgIdsForCat id).length := by
  have hunf : get_class_dist coco cn =
      (0, ((coco.getCatIds (cn.getD [])).map
        coco.getImgIdsForCat).flatten.dedup.length) ::
      (coco.getCatIds (cn.getD [])).map
        (fun id => (id, (coco.getImgIdsForCat id).length)) := rfl
  constructor
  · rw [hunf, dget_cons]
    have hnone : dget ((coco.getCatIds (cn.getD [])).map
        (fun id => (id, (coco.getImgIdsForCat id).length))) 0 = none := by
      apply dget_eq_none
      intro p hp
      rcases List.mem_map.mp hp with ⟨id, hid, rfl⟩
      intro he
      exact h0 (he ▸ hid)
    rw [hnone, Option.none_or]
    rfl
  · intro id hid
    rw [hunf, dget_cons]
    have hsome : dget ((coco.getCatIds (cn.getD [])).map
        (fun i => (i, (coco.getImgIdsForCat i).length))) id =
        some (coco.getImgIdsForCat id).length := by
      apply dget_eq_of_forall
      · exact ⟨(id, (coco.getImgIdsForCat id).length),
          List.mem_map.mpr ⟨id, hid, rfl⟩, rfl⟩
      · intro p hp hpk
        rcases List.mem_map.mp hp with ⟨i, _, rfl⟩
        simp only at hpk
        rw [hpk]
    rw [hsome]
    rfl

/-- C9 witness: on the concrete store the dict is
{0 ↦ 2, 5 ↦ 2, 7 ↦ 1} (images 10 and 11 carry the selected categories). -/
theorem claim_C9_witness :
    0 ∉ cocoW.getCatIds ((some ["x"]).getD []) ∧
    (dget (get_class_dist cocoW (some ["x"])) 0 =
      some (((cocoW.getCatIds ((some ["x"]).getD [])).map
        cocoW.getImgIdsForCat).flatten.dedup.length) ∧
    ∀ id ∈ cocoW.getCatIds ((some ["x"]).getD []),
      dget (get_class_dist cocoW (some ["x"])) id =
        some (cocoW.getImgIdsForCat id).length) :=
  ⟨by decide, claim_C9 cocoW (some ["x"]) (by decide)⟩

/-! ## C1: the background-vs-union invariant -/

theorem foldl_maskStep_bg (c2c : List (Nat × Nat)) (r c : Nat) :
    ∀ (anns : List Ann) (st : (Nat → Nat → Nat → Nat) × (Nat → Nat → Bool)),
      (anns.foldl (maskStep c2c) st).2 r c =
        (st.2 r c ||
          anns.any (fun a => (dget c2c a.category_id).isSome && a.rast r c)) := by
  intro anns
  induction anns with
  | nil => intro st; simp
  | cons a l ih =>
      intro st
      rw [List.foldl_cons, ih]
      cases hd : dget c2c a.category_id with
      | some i => simp [maskStep, hd, List.any_cons, Bool.or_assoc]
      | none => simp [maskStep, hd, List.any_cons]

theorem foldl_maskStep_ch (c2c : List (Nat × Nat)) (i r c : Nat) :
    ∀ (anns : List Ann) (st : (Nat → Nat → Nat → Nat) × (Nat → Nat → Bool)),
      (anns.foldl (maskStep c2c) st).1 r c i =
        (match lastWrite c2c anns i with
         | some a => (if a.rast r c then 1 else 0)
         | none => st.1 r c i) := by
  intro anns
  induction anns with
  | nil => intro st; rfl
  | cons a l ih =>
      intro st
      have hlw : lastWrite c2c (a :: l) i =
          (lastWrite c2c l i).or
            (if dget c2c a.category_id = some i then some a else none) := by
        unfold lastWrite
        rw [List.reverse_cons, List.find?_append]
        cases hf : List.find?
            (fun b => dget c2c b.category_id == some i) l.reverse with
        | some q => simp
        | none =>
            simp only [Option.none_or, List.find?_cons, List.find?_nil]
            by_cases hd : dget c2c a.category_id = some i
            · simp [hd]
            · have hb : (dget c2c a.category_id == some i) = false :=
                beq_eq_false_iff_ne.mpr hd
              rw [hb, if_neg hd]
      rw [List.foldl_cons, ih, hlw]
      cases hl : lastWrite c2c l i with
      | some b => rfl
      | none =>
          simp only [Option.none_or]
          cases hd : dget c2c a.category_id with
          | some j =>
              by_cases hj : j = i
              · subst hj
                rw [if_pos rfl]
                simp [maskStep, hd]
              · rw [if_neg (fun he => hj (Option.some.inj he))]
                have hji : i ≠ j := fun he => hj he.symm
                simp [maskStep, hd, hji]
          | none =>
              rw [if_neg (fun he => Option.noConfusion he)]
              simp [maskStep, hd]

theorem mask_bg (anns : List Ann) (c2c : List (Nat × Nat)) (r c : Nat) :
    load_maskAnns anns c2c r c 0 =
      if anns.any (fun a => (dget c2c a.category_id).isSome && a.rast r c)
      then 0 else 1 := by
  unfold load_maskAnns
  rw [if_pos rfl, foldl_maskStep_bg]
  simp

theorem mask_ch_of_lastWrite (anns : List Ann) (c2c : List (Nat × Nat))
    (r c ch : Nat) (hne : ch ≠ 0) :
    load_maskAnns anns c2c r c ch =
      (match lastWrite c2c anns ch with
       | some a => (if a.rast r c then 1 else 0)
       | none => 0) := by
  unfold load_maskAnns
  rw [if_neg hne, foldl_maskStep_ch]

theorem lastWrite_mem (c2c : List (Nat × Nat)) (anns : List Ann) (i : Nat)
    (b : Ann) (h : lastWrite c2c anns i = some b) :
    b ∈ anns ∧ dget c2c b.category_id = some i := by
  unfold lastWrite at h
  refine ⟨List.mem_reverse.mp (List.mem_of_find?_eq_some h), ?_⟩
  have hp := List.find?_some h
  exact beq_iff_eq.mp hp

theorem lastWrite_eq_of_uniq (c2c : List (Nat × Nat)) (anns : List Ann)
    (huniq : List.Pairwise
      (fun a b => (dget c2c a.category_id).isSome = true →
        dget c2c a.category_id ≠ dget c2c b.category_id) anns)
    (a : Ann) (i : Nat) (ha : a ∈ anns)
    (hi : dget c2c a.category_id = some i) :
    lastWrite c2c anns i = some a := by
  cases hlw : lastWrite c2c anns i with
  | none =>
      exfalso
      unfold lastWrite at hlw
      rw [List.find?_eq_none] at hlw
      apply hlw a (List.mem_reverse.mpr ha)
      rw [beq_iff_eq]
      exact hi
  | some b =>
      rcases lastWrite_mem c2c anns i b hlw with ⟨hb, hbd⟩
      by_cases hab : b = a
      · rw [hab]
      · exfalso
        have hpair : List.Pairwise (fun x y : Ann =>
            ((dget c2c x.category_id).isSome = true →
              dget c2c x.category_id ≠ dget c2c y.category_id) ∨
            ((dget c2c y.category_id).isSome = true →
              dget c2c y.category_id ≠ dget c2c x.category_id)) anns :=
          huniq.imp (fun h => Or.inl h)
        have hsymm : Symmetric (fun x y : Ann =>
            ((dget c2c x.category_id).isSome = true →
              dget c2c x.category_id ≠ dget c2c y.category_id) ∨
            ((dget c2c y.category_id).isSome = true →
              dget c2c y.category_id ≠ dget c2c x.category_id)) :=
          fun x y h => Or.symm h
        have hT := List.Pairwise.forall hsymm hpair hb ha hab
        rcases hT with hR | hR
        · exact hR (by rw [hbd]; rfl) (by rw [hbd, hi])
        · exact hR (by rw [hi]; rfl) (by rw [hi, hbd])

theorem foldl_max_eq_zero (f : Nat → Nat) :
    ∀ (l : List Nat) (v : Nat),
      (l.foldl (fun acc x => max acc (f x)) v = 0) ↔
        (v = 0 ∧ ∀ x ∈ l, f x = 0) := by
  intro l
  induction l with
  | nil => intro v; simp
  | cons x l ih =>
      intro v
      rw [List.foldl_cons, ih]
      simp [Nat.max_eq_zero_iff, List.forall_mem_cons, and_assoc]

theorem unionOthers_eq_zero_iff (m : Nat → Nat → Nat → Nat) (n r c : Nat) :
    unionOthers m n r c = 0 ↔
      ∀ ch, ch < n → ch ≠ 0 → m r c ch = 0 := by
  unfold unionOthers
  rw [foldl_max_eq_zero]
  simp only [true_and, List.mem_filter, List.mem_range, decide_eq_true_eq]
  constructor
  · intro h ch h1 h2
    exact h ch ⟨h1, h2⟩
  · intro h ch hch
    exact h ch hch.1 hch.2

/-- C1 counterexample: with channel map {0 ↦ 0, 5 ↦ 1} and two annotations
of category 5 — the first covering pixel (0,0), the second not — channel 1
of the returned mask holds only the last rasterization (0 at (0,0)), while
the background accumulator saw both, so channel 0 is 0 at (0,0) but the
negated union of the other channels is 1 there: the claimed invariant fails
for this image and channel index map. -/
theorem claim_C1_counterexample :
    ¬ (load_maskAnns annsX c2cX 0 0 0 =
        if unionOthers (load_maskAnns annsX c2cX) (dsize c2cX) 0 0 = 0 then 1
        else 0) := by
  decide

/-- C1 (amended): channel 0 of the categorical mask equals, at every pixel,
the logical negation of the union (pixel-wise maximum) of all other
channels, provided the channel index map sends every in-scope annotation of
the image to a nonzero channel index below the map's size and no two
annotations of the image are mapped to the same channel (in particular at
most one annotation per in-scope category).  Without the latter condition a
later same-category annotation overwrites an earlier one in its channel
while the background accumulator keeps both, and the invariant fails. -/
theorem claim_C1_amended (anns : List Ann) (c2c : List (Nat × Nat))
    (hch : ∀ a ∈ anns, ∀ i, dget c2c a.category_id = some i →
      i ≠ 0 ∧ i < dsize c2c)
    (huniq : List.Pairwise
      (fun a b => (dget c2c a.category_id).isSome = true →
        dget c2c a.category_id ≠ dget c2c b.category_id) anns)
    (r c : Nat) :
    load_maskAnns anns c2c r c 0 =
      if unionOthers (load_maskAnns anns c2c) (dsize c2c) r c = 0 then 1
      else 0 := by
  rw [mask_bg]
  by_cases hA : anns.any
      (fun a => (dget c2c a.category_id).isSome && a.rast r c) = true
  · rw [if_pos hA]
    rcases List.any_eq_true.mp hA with ⟨a, ha, hpa⟩
    rw [Bool.and_eq_true] at hpa
    have hsome := hpa.1
    have hrast := hpa.2
    obtain ⟨i, hi⟩ := Option.isSome_iff_exists.mp hsome
    have hi0 := (hch a ha i hi).1
    have hin := (hch a ha i hi).2
    have hlw : lastWrite c2c anns i = some a :=
      lastWrite_eq_of_uniq c2c anns huniq a i ha hi
    have hmaski : load_maskAnns anns c2c r c i = 1 := by
      rw [mask_ch_of_lastWrite anns c2c r c i hi0, hlw]
      simp [hrast]
    have hune : unionOthers (load_maskAnns anns c2c) (dsize c2c) r c ≠ 0 := by
      intro h
      have h2 := (unionOthers_eq_zero_iff _ _ _ _).mp h i hin hi0
      rw [hmaski] at h2
      cases h2
    rw [if_neg hune]
  · rw [if_neg hA]
    have hun : unionOthers (load_maskAnns anns c2c) (dsize c2c) r c = 0 := by
      rw [unionOthers_eq_zero_iff]
      intro ch hlt hne
      rw [mask_ch_of_lastWrite anns c2c r c ch hne]
      cases hlw : lastWrite c2c anns ch with
      | none => rfl
      | some b =>
          rcases lastWrite_mem c2c anns ch b hlw with ⟨hb, hbd⟩
          have hbf : b.rast r c = false := by
            cases hbr : b.rast r c with
            | false => rfl
            | true =>
                exfalso
                apply hA
                refine List.any_eq_true.mpr ⟨b, hb, ?_⟩
                rw [hbd, hbr]
                rfl
          simp [hbf]
    rw [if_pos hun]

/-- C1 (amended) witness: a single annotation of category 5 covering row 0
under the map {0 ↦ 0, 5 ↦ 1} satisfies the side conditions, and at pixel
(0,0) channel 0 is 0 while the union of the other channels is 1. -/
theorem claim_C1_amended_witness :
    (∀ a ∈ annsY, ∀ i, dget c2cX a.category_id = some i →
      i ≠ 0 ∧ i < dsize c2cX) ∧
    List.Pairwise
      (fun a b => (dget c2cX a.category_id).isSome = true →
        dget c2cX a.category_id ≠ dget c2cX b.category_id) annsY ∧
    load_maskAnns annsY c2cX 0 0 0 =
      (if unionOthers (load_maskAnns annsY c2cX) (dsize c2cX) 0 0 = 0 then 1
       else 0) := by
  have hch : ∀ a ∈ annsY, ∀ i, dget c2cX a.category_id = some i →
      i ≠ 0 ∧ i < dsize c2cX := by
    intro a ha i hi
    rw [show annsY = [Ann.mk 5 (fun r _ => r == 0)] from rfl,
      List.mem_singleton] at ha
    subst ha
    have h1 : dget c2cX (Ann.mk 5 (fun r _ => r == 0)).category_id = some 1 := by
      decide
    rw [h1] at hi
    injection hi with h2
    subst h2
    exact ⟨by decide, by decide⟩
  have hu : List.Pairwise
      (fun a b => (dget c2cX a.category_id).isSome = true →
        dget c2cX a.category_id ≠ dget c2cX b.category_id) annsY := by
    rw [show annsY = [Ann.mk 5 (fun r _ => r == 0)] from rfl]
    exact List.pairwise_singleton _ _
  exact ⟨hch, hu, claim_C1_amended annsY c2cX hch hu 0 0⟩

/-! ## C6: shapes and per-channel nearest-neighbor resize in load_data -/

/-- C6: load_data returns (X, Y) with X of shape
(n_images, targetH, targetW, 3) holding the decoded, resized images, and Y
of shape (n_images, targetH, targetW, n_classes) where n_classes counts the
class list with background; every channel j of every Y[i] is the
nearest-neighbor resize (the external resizeNN capability) of channel j of
the native-resolution categorical mask of the i-th selected image, each
channel resized independently. -/
theorem claim_C6 (coco : Coco) (img_dir : String) (img_size : Nat × Nat)
    (cn : Option (List String))
    (decodeResized : String → Nat × Nat → Nat → Nat → Nat → Nat)
    (resizeNN : (Nat → Nat → Nat) → Nat × Nat → Nat → Nat → Nat) :
    ((load_data coco img_dir img_size cn decodeResized resizeNN).1.d0 =
        (load_imgs coco cn).2.1.length ∧
     (load_data coco img_dir img_size cn decodeResized resizeNN).1.d1 =
        img_size.1 ∧
     (load_data coco img_dir img_size cn decodeResized resizeNN).1.d2 =
        img_size.2 ∧
     (load_data coco img_dir img_size cn decodeResized resizeNN).1.d3 = 3) ∧
    ((load_data coco img_dir img_size cn decodeResized resizeNN).2.d0 =
        (load_imgs coco cn).2.1.length ∧
     (load_data coco img_dir img_size cn decodeResized resizeNN).2.d1 =
        img_size.1 ∧
     (load_data coco img_dir img_size cn decodeResized resizeNN).2.d2 =
        img_size.2 ∧
     (load_data coco img_dir img_size cn decodeResized resizeNN).2.d3 =
        (load_imgs coco cn).2.2.1.length) ∧
    (∀ i r c k,
      (load_data coco img_dir img_size cn decodeResized resizeNN).1.val
          i r c k =
        decodeResized (img_dir ++ "/" ++ (load_imgs coco cn).2.1.getD i "")
          img_size r c k) ∧
    ∀ i r c j,
      (load_data coco img_dir img_size cn decodeResized resizeNN).2.val
          i r c j =
        resizeNN
          (fun a b =>
            load_mask coco ((load_imgs coco cn).1.getD i 0)
              (load_imgs coco cn).2.2.2 a b j)
          img_size r c :=
  ⟨⟨rfl, rfl, rfl, rfl⟩, ⟨rfl, rfl, rfl, rfl⟩,
   fun _ _ _ _ => rfl, fun _ _ _ _ => rfl⟩
